import Mathlib

/-!
# Verification of the yield pipeline core

Shallow embedding of the core of the `yieldhomework` repository: the chain
scanner (`lombard_crawler.go`), the outbox store (`crawler_repository.go`),
the order store (`order_repository.go`) and the transfer materializer
(`materializer.go`).  Pure Go functions become Lean functions; the Postgres
tables become explicit list-valued states with the schema's uniqueness
constraints enforced by the operations; fallible store calls return
`Option`/`Except`.  Machine integers (`uint64`) are modelled as `Nat`, with
explicit `% 2 ^ 64` wrapping where Go's unsigned subtraction can wrap.
-/

namespace Yield

/-! ## Decimal rendering: `LombardCrawler.convertToDecimalAmount`

The crawler rescales raw on-chain integer amounts to decimal strings
(`lombard_crawler.go`, `convertToDecimalAmount`).  Go's `big.Int.String`
prints the usual base-10 representation; we model it digit by digit. -/

/-- One decimal digit as a character. -/
def digitChar (d : Nat) : Char := Char.ofNat (48 + d)

/-- Fuel-driven little-endian decimal digits: divide by ten until zero.
The fuel only bounds the iteration count; `natDigitsLE` passes `n` itself,
which always suffices (a positive `n` reaches zero within `n` divisions). -/
def natDigitsGo : Nat → Nat → List Nat
  | 0, _ => []
  | _, 0 => []
  | fuel + 1, n => n % 10 :: natDigitsGo fuel (n / 10)

/-- Little-endian decimal digit values of `n` (empty for `n = 0`); agrees
with `Nat.digits 10 n`. -/
def natDigitsLE (n : Nat) : List Nat := natDigitsGo n n

/-- Big-endian decimal digit values of `n` (empty for `n = 0`). -/
def natDigits (n : Nat) : List Nat := (natDigitsLE n).reverse

/-- Characters of the base-10 representation of `n`; models `big.Int.String`
for nonnegative values (`"0"` for zero). -/
def natChars (n : Nat) : List Char :=
  if n = 0 then ['0'] else (natDigits n).map digitChar

/-- The base-10 string of `n`; models `big.Int.String` for nonnegative values. -/
def natStr (n : Nat) : String := String.mk (natChars n)

/-- Models the `for len(remainderStr) < decimals` loop of
`convertToDecimalAmount` that left-pads the remainder with `'0'`. -/
def padLeftZeros (l : List Char) (width : Nat) : List Char :=
  List.replicate (width - l.length) '0' ++ l

/-- Models `strings.TrimRight(remainderStr, "0")`. -/
def trimRightZeros (l : List Char) : List Char :=
  (l.reverse.dropWhile (fun c => c = '0')).reverse

/-- `LombardCrawler.convertToDecimalAmount` (`lombard_crawler.go` lines
100-122): divide by `10 ^ decimals` with integer arithmetic, print the whole
part, and append the zero-padded, right-trimmed fractional digits when the
remainder is nonzero. -/
def convertToDecimalAmount (amount : Nat) (decimals : Nat) : String :=
  let divisor := 10 ^ decimals
  let wholePart := amount / divisor
  let remainder := amount % divisor
  if remainder = 0 then
    natStr wholePart
  else
    let remainderChars := padLeftZeros (natChars remainder) decimals
    let trimmed := trimRightZeros remainderChars
    if trimmed = [] then
      natStr wholePart
    else
      natStr wholePart ++ "." ++ String.mk trimmed

/-! ### A decoder for decimal strings

Used to state that the produced string is exactly the decimal representation
of `amount / 10 ^ decimals`: the decoder recovers the whole part and the
fractional digits, and a value equation ties them back to the input. -/

/-- Numeric value of a digit character. -/
def digitVal (c : Char) : Nat := c.toNat - 48

/-- Base-10 value of a big-endian digit-character list (Horner). -/
def chrsVal (l : List Char) : Nat := l.foldl (fun a c => 10 * a + digitVal c) 0

/-- Decode a plain decimal string into its whole-part value and its
fractional digit characters.  Succeeds only on strings of the form
`digits` or `digits.digits` — in particular there is no scientific
notation, no sign, and at most one `'.'`. -/
def decodeDecimal (l : List Char) : Option (Nat × List Char) :=
  match l.span (fun c => c ≠ '.') with
  | (w, []) =>
    if w ≠ [] ∧ w.all Char.isDigit then some (chrsVal w, []) else none
  | (w, _ :: f) =>
    if w ≠ [] ∧ w.all Char.isDigit ∧ f ≠ [] ∧ f.all Char.isDigit ∧ ¬ f.contains '.' then
      some (chrsVal w, f)
    else none

/-! ## `big.Float` at precision 64: `TransferMaterializer.calculateEstimatedAmount`

`calculateEstimatedAmount` (`materializer.go` lines 239-282) computes with
Go `big.Float` values.  Every `big.Float` created there has precision 64
(the default taken by `SetString`, `SetInt`, `Mul` and `Quo` on a fresh
receiver) and the default `ToNearestEven` rounding mode, so each operation
is the correctly rounded result at a 64-bit mantissa.  We model such a
float as a mantissa/scale pair with value `m / 2 ^ s` and normalised
mantissa `2 ^ 63 ≤ m < 2 ^ 64` (or `m = 0` for zero). -/

/-- Fuel-driven binary length: halve until zero.  The fuel only bounds the
iteration count; `bitLen` passes `n` itself, which always suffices since a
positive `n` reaches zero within `⌊log2 n⌋ + 1 ≤ n` halvings. -/
def bitLenGo : Nat → Nat → Nat
  | 0, _ => 0
  | _, 0 => 0
  | fuel + 1, n => bitLenGo fuel (n / 2) + 1

/-- Number of binary digits of `n` (`0` for `n = 0`). -/
def bitLen (n : Nat) : Nat := bitLenGo n n

/-- A Go `big.Float` with precision 64: the value is `m / 2 ^ s`. -/
structure BigFloat where
  m : Nat
  s : Int
  deriving Repr, DecidableEq

/-- Round `a / b` (with `b ≠ 0`) to the nearest integer, ties to even. -/
def roundNearestEven (a b : Nat) : Nat :=
  let q := a / b
  let r := a % b
  if b < 2 * r then q + 1
  else if 2 * r < b then q
  else if q % 2 = 0 then q else q + 1

/-- Numerator of `num / den` after shifting the value by `2 ^ s`. -/
def shiftNum (num : Nat) (s : Int) : Nat :=
  if 0 ≤ s then num * 2 ^ s.toNat else num

/-- Denominator of `num / den` after shifting the value by `2 ^ s`. -/
def shiftDen (den : Nat) (s : Int) : Nat :=
  if 0 ≤ s then den else den * 2 ^ (-s).toNat

/-- Correctly round the nonnegative rational `num / den` to a precision-64
binary float, ties to even — the rounding every 64-bit-precision `big.Float`
operation performs on its exact result. -/
def roundTo64 (num den : Nat) : BigFloat :=
  if num = 0 ∨ den = 0 then ⟨0, 0⟩ else
    let s0 : Int := 63 - ((bitLen num : Int) - (bitLen den : Int))
    let q0 := shiftNum num s0 / shiftDen den s0
    let s := if q0 < 2 ^ 63 then s0 + 1 else s0
    let m := roundNearestEven (shiftNum num s) (shiftDen den s)
    if m = 2 ^ 64 then ⟨2 ^ 63, s - 1⟩ else ⟨m, s⟩

/-- Exact numerator of the value of `x`. -/
def BigFloat.num (x : BigFloat) : Nat :=
  if 0 ≤ x.s then x.m else x.m * 2 ^ (-x.s).toNat

/-- Exact denominator of the value of `x`. -/
def BigFloat.den (x : BigFloat) : Nat :=
  if 0 ≤ x.s then 2 ^ x.s.toNat else 1

/-- `big.Float.Mul` on precision-64 operands with a fresh receiver. -/
def bfMul (x y : BigFloat) : BigFloat :=
  roundTo64 (x.num * y.num) (x.den * y.den)

/-- `big.Float.Quo` on precision-64 operands with a fresh receiver. -/
def bfQuo (x y : BigFloat) : BigFloat :=
  roundTo64 (x.num * y.den) (x.den * y.num)

/-- `new(big.Float).SetString` on the unsigned plain decimal literals this
pipeline produces (amounts and raw integer payload fields); other inputs
are modelled as a parse failure. -/
def parseBigFloat (s : String) : Option BigFloat :=
  (decodeDecimal s.data).map fun wf =>
    roundTo64 (wf.1 * 10 ^ wf.2.length + chrsVal wf.2) (10 ^ wf.2.length)

/-- `big.Float.Text('f', 18)`: fixed-point rendering with exactly 18
fractional digits, correctly rounded (nonnegative values). -/
def bigFloatTextF18 (x : BigFloat) : String :=
  let scaled := roundNearestEven (x.num * 10 ^ 18) x.den
  natStr (scaled / 10 ^ 18) ++ "." ++
    String.mk (padLeftZeros (natChars (scaled % 10 ^ 18)) 18)

/-- Lookup of a string-valued field in a decoded JSON object, modelling
`eventMap["min_price"].(string)`. -/
def lookupField (m : List (String × String)) (k : String) : Option String :=
  (m.find? (fun p => p.1 = k)).map (fun p => p.2)

/-- `TransferMaterializer.calculateEstimatedAmount` (`materializer.go` lines
239-282).  The raw JSON payload is modelled as `Option` of an association
list of its string-valued fields (`none` = `json.Unmarshal` failure).
Returns the estimate string, `none` for a zero `min_price`, or an error. -/
def calculateEstimatedAmount (eventData : Option (List (String × String)))
    (amount : String) : Except String (Option String) :=
  match eventData with
  | none => .error "failed to unmarshal event data"
  | some eventMap =>
    match lookupField eventMap "min_price" with
    | none => .error "min_price not found in event data"
    | some minPriceStr =>
      match parseBigFloat amount with
      | none => .error "failed to parse amount"
      | some amountFloat =>
        match parseBigFloat minPriceStr with
        | none => .error "failed to parse min_price"
        | some minPriceFloat =>
          if minPriceFloat.m = 0 then .ok none
          else
            let numeratorFloat := bfMul minPriceFloat amountFloat
            let estimatedAmountFloat := bfQuo numeratorFloat (roundTo64 (10 ^ 8) 1)
            .ok (some (bigFloatTextF18 estimatedAmountFloat))

/-! ## Order store: `order_repository.go`

The `orders` table (`InitMigration`): `order_id UUID PRIMARY KEY`,
`UNIQUE(tx_hash, log_index)`.  A state is the list of rows plus a counter
supplying fresh surrogate ids (modelling `uuid.New()`).  `UpsertOrder` is
`INSERT ... ON CONFLICT (tx_hash, log_index) DO UPDATE SET <every column>`;
an insert (or an update moving `order_id`) that collides with the primary
key of a different row is a SQL error, modelled as `none`. -/

structure Order where
  orderId : Nat
  txHash : String
  logIndex : Nat
  blockNumber : Nat
  txDate : Nat
  transferType : String
  status : String
  walletAddress : String
  amount : String
  fromAssetName : String
  toAssetName : String
  estimatedAmount : Option String
  deriving Repr, DecidableEq

structure OrderDB where
  rows : List Order
  nextId : Nat
  deriving Repr, DecidableEq

def emptyOrderDB : OrderDB := ⟨[], 0⟩

/-- `OrderRepository.UpsertOrder` (`order_repository.go` lines 19-47). -/
def UpsertOrder (o : Order) (db : OrderDB) : Option OrderDB :=
  match db.rows.find? (fun r => r.txHash == o.txHash && r.logIndex == o.logIndex) with
  | some r =>
    if o.orderId ≠ r.orderId ∧ db.rows.any (fun r2 => r2.orderId == o.orderId) then
      none
    else
      let newRows := db.rows.map (fun r2 =>
        if r2.txHash == o.txHash && r2.logIndex == o.logIndex then o else r2)
      some { db with rows := newRows }
  | none =>
    if db.rows.any (fun r2 => r2.orderId == o.orderId) then none
    else some { db with rows := db.rows ++ [o] }

/-- The `WHERE` clause shared by the two in-progress-withdrawal lookups. -/
def isInProgressWithdrawal (walletAddress : String) (r : Order) : Bool :=
  r.walletAddress == walletAddress && r.transferType == "withdrawal" &&
    r.status == "in_progress"

/-- `ORDER BY tx_date DESC LIMIT 1`: a row of maximal `tx_date` (the
earliest such row in storage order, a deterministic refinement of the
unspecified SQL tie-break). -/
def pickLatest (l : List Order) : Option Order :=
  l.foldl
    (fun acc r =>
      match acc with
      | none => some r
      | some b => if b.txDate < r.txDate then some r else some b)
    none

/-- `OrderRepository.GetLastInProgressWithdrawalByWallet` (lines 68-87). -/
def GetLastInProgressWithdrawalByWallet (db : OrderDB) (walletAddress : String) :
    Option Order :=
  pickLatest (db.rows.filter (isInProgressWithdrawal walletAddress))

/-- `OrderRepository.GetInProgressWithdrawalByWalletAndAmount` (lines 89-108). -/
def GetInProgressWithdrawalByWalletAndAmount (db : OrderDB)
    (walletAddress amount : String) : Option Order :=
  pickLatest (db.rows.filter
    (fun r => isInProgressWithdrawal walletAddress r && r.amount == amount))

/-- `OrderRepository.GetOrderByTxHash` (lines 49-66): `QueryRow` by
`tx_hash` alone; the first matching row in storage order, `none` for
`sql.ErrNoRows`. -/
def GetOrderByTxHash (db : OrderDB) (txHash : String) : Option Order :=
  db.rows.find? (fun r => r.txHash == txHash)

/-! ## Transfer materializer: `materializer.go` -/

/-- ASCII lower-casing of one character. -/
def charToLower (c : Char) : Char :=
  if 65 ≤ c.toNat ∧ c.toNat ≤ 90 then Char.ofNat (c.toNat + 32) else c

/-- `strings.ToLower` on the ASCII event-type strings this pipeline uses. -/
def strToLower (s : String) : String := String.mk (s.data.map charToLower)

/-- The bus message (`events.TransferEvent`).  `eventData` is the decoded
JSON payload as in `calculateEstimatedAmount`. -/
structure TransferEvent where
  eventType : String
  txHash : String
  blockNumber : Nat
  logIndex : Nat
  txDate : Nat
  walletAddress : String
  eventData : Option (List (String × String))
  amount : String
  fromAssetName : String
  toAssetName : String
  deriving Repr, DecidableEq

/-- `TransferMaterializer.mapEventToTransferAndStatus` (lines 225-237). -/
def mapEventToTransferAndStatus (eventType : String) : String × String :=
  if strToLower eventType == "deposit" then ("deposit", "completed")
  else if strToLower eventType == "withdrawal_requested" then ("withdrawal", "in_progress")
  else if strToLower eventType == "withdrawal_completed" then ("withdrawal", "completed")
  else (eventType, "unknown")

/-- `TransferMaterializer.processWithdrawalRequested` (lines 114-169). -/
def processWithdrawalRequested (e : TransferEvent) (db : OrderDB) :
    Except String OrderDB :=
  match calculateEstimatedAmount e.eventData e.amount with
  | .error err => .error err
  | .ok estimatedAmount =>
    match GetInProgressWithdrawalByWalletAndAmount db e.walletAddress e.amount with
    | some existingWithdrawal =>
      let updated := { existingWithdrawal with
        txHash := e.txHash, logIndex := e.logIndex, blockNumber := e.blockNumber,
        txDate := e.txDate, fromAssetName := e.fromAssetName,
        toAssetName := e.toAssetName, estimatedAmount := estimatedAmount }
      match UpsertOrder updated db with
      | some db2 => .ok db2
      | none => .error "failed to upsert order"
    | none =>
      let order : Order := {
        orderId := db.nextId, txHash := e.txHash, logIndex := e.logIndex,
        blockNumber := e.blockNumber, txDate := e.txDate,
        transferType := "withdrawal", status := "in_progress",
        walletAddress := e.walletAddress, amount := e.amount,
        fromAssetName := e.fromAssetName, toAssetName := e.toAssetName,
        estimatedAmount := estimatedAmount }
      match UpsertOrder order { db with nextId := db.nextId + 1 } with
      | some db2 => .ok db2
      | none => .error "failed to upsert order"

/-- `TransferMaterializer.processWithdrawalCompleted` (lines 171-223). -/
def processWithdrawalCompleted (e : TransferEvent) (db : OrderDB) :
    Except String OrderDB :=
  match GetLastInProgressWithdrawalByWallet db e.walletAddress with
  | none =>
    let order : Order := {
      orderId := db.nextId, txHash := e.txHash, logIndex := e.logIndex,
      blockNumber := e.blockNumber, txDate := e.txDate,
      transferType := "withdrawal", status := "completed",
      walletAddress := e.walletAddress, amount := e.amount,
      fromAssetName := e.fromAssetName, toAssetName := e.toAssetName,
      estimatedAmount := some e.amount }
    match UpsertOrder order { db with nextId := db.nextId + 1 } with
    | some db2 => .ok db2
    | none => .error "failed to upsert order"
  | some lastWithdrawal =>
    let updated := { lastWithdrawal with
      status := "completed",
      estimatedAmount :=
        match lastWithdrawal.estimatedAmount with
        | none => some e.amount
        | some v => some v }
    match UpsertOrder updated db with
    | some db2 => .ok db2
    | none => .error "failed to update withdrawal status to completed"

/-- `TransferMaterializer.processMessage` (lines 70-112): dispatch on the
lower-cased event type; the generic branch covers `deposit` and unknown
types. -/
def processMessage (e : TransferEvent) (db : OrderDB) : Except String OrderDB :=
  if strToLower e.eventType == "withdrawal_completed" then
    processWithdrawalCompleted e db
  else if strToLower e.eventType == "withdrawal_requested" then
    processWithdrawalRequested e db
  else
    let ts := mapEventToTransferAndStatus e.eventType
    let order : Order := {
      orderId := db.nextId, txHash := e.txHash, logIndex := e.logIndex,
      blockNumber := e.blockNumber, txDate := e.txDate,
      transferType := ts.1, status := ts.2,
      walletAddress := e.walletAddress, amount := e.amount,
      fromAssetName := e.fromAssetName, toAssetName := e.toAssetName,
      estimatedAmount := none }
    match UpsertOrder order { db with nextId := db.nextId + 1 } with
    | some db2 => .ok db2
    | none => .error "failed to upsert order"

/-- One consumed bus message in the `Start` loop (lines 43-68): a processing
error is logged and the loop moves on, leaving the store unchanged. -/
def applyMessage (db : OrderDB) (e : TransferEvent) : OrderDB :=
  match processMessage e db with
  | .ok db2 => db2
  | .error _ => db

/-- The materializer consuming a whole message sequence in order. -/
def applyMessages (msgs : List TransferEvent) (db : OrderDB) : OrderDB :=
  msgs.foldl applyMessage db

/-- The schema constraints of the `orders` table together with freshness of
the id counter: pairwise-distinct `(tx_hash, log_index)` natural keys
(`UNIQUE`), pairwise-distinct `order_id`s (the primary key), and every
stored id below the counter supplying fresh ids. -/
def OrderDB.WF (db : OrderDB) : Prop :=
  db.rows.Pairwise (fun x y => ¬ (x.txHash = y.txHash ∧ x.logIndex = y.logIndex)) ∧
  db.rows.Pairwise (fun x y => x.orderId ≠ y.orderId) ∧
  ∀ r ∈ db.rows, r.orderId < db.nextId

/-! ## Outbox store: `crawler_repository.go`

The `event_outbox` table (`InitMigration`): `PRIMARY KEY (tx_hash,
log_index)`, `created_at DEFAULT NOW()`.  The state is the row list plus a
logical clock supplying strictly increasing `NOW()` values. -/

structure OutboxEvent where
  txHash : String
  eventType : String
  status : String
  blockNumber : Nat
  logIndex : Nat
  txDate : Nat
  walletAddress : String
  eventBlob : String
  amount : String
  fromAssetName : String
  toAssetName : String
  createdAt : Nat
  deriving Repr, DecidableEq

structure OutboxDB where
  rows : List OutboxEvent
  now : Nat
  deriving Repr, DecidableEq

def emptyOutboxDB : OutboxDB := ⟨[], 0⟩

/-- `CrawlerRepository.StoreOutboxEvent` (`crawler_repository.go` lines
36-58): `INSERT ... ON CONFLICT (tx_hash, log_index) DO UPDATE SET` every
column except `event_type`, with `created_at = NOW()`; a fresh insert takes
`created_at` from its column default. -/
def StoreOutboxEvent (e : OutboxEvent) (db : OutboxDB) : OutboxDB :=
  match db.rows.find? (fun r => r.txHash == e.txHash && r.logIndex == e.logIndex) with
  | some _ =>
    let newRows := db.rows.map (fun r =>
      if r.txHash == e.txHash && r.logIndex == e.logIndex then
        { r with
          status := e.status, blockNumber := e.blockNumber,
          txDate := e.txDate, walletAddress := e.walletAddress,
          eventBlob := e.eventBlob, amount := e.amount,
          fromAssetName := e.fromAssetName, toAssetName := e.toAssetName,
          createdAt := db.now }
      else r)
    { rows := newRows, now := db.now + 1 }
  | none =>
    { rows := db.rows ++ [{ e with createdAt := db.now }], now := db.now + 1 }

/-- `ORDER BY created_at, log_index`. -/
def outboxOrderLe (a b : OutboxEvent) : Bool :=
  a.createdAt < b.createdAt || (a.createdAt == b.createdAt && a.logIndex ≤ b.logIndex)

/-- Insert into a list sorted by `outboxOrderLe` (stable). -/
def insertByOutboxOrder (a : OutboxEvent) : List OutboxEvent → List OutboxEvent
  | [] => [a]
  | b :: bs => if outboxOrderLe b a then b :: insertByOutboxOrder a bs else a :: b :: bs

/-- Sort by `(created_at, log_index)` — insertion sort, a deterministic
refinement of the SQL `ORDER BY`. -/
def sortByOutboxOrder (l : List OutboxEvent) : List OutboxEvent :=
  l.foldr insertByOutboxOrder []

/-- `CrawlerRepository.GetUnsentEventsForProcessing` (lines 60-114): in one
transaction, select up to `limit` rows with `status = 'unsent'` ordered by
`(created_at, log_index)`, then set each selected row to `processing`
(matching on `(tx_hash, event_type, log_index)` and `status = 'unsent'`). -/
def GetUnsentEventsForProcessing (limit : Nat) (db : OutboxDB) :
    List OutboxEvent × OutboxDB :=
  let selected :=
    (sortByOutboxOrder (db.rows.filter (fun r => r.status == "unsent"))).take limit
  let newRows := db.rows.map (fun r =>
    if r.status == "unsent" &&
        selected.any (fun s =>
          s.txHash == r.txHash && s.eventType == r.eventType && s.logIndex == r.logIndex) then
      { r with status := "processing" }
    else r)
  (selected, { db with rows := newRows })

/-- `CrawlerRepository.MarkEventAsSent` (lines 116-123): unconditional
`UPDATE ... SET status = 'sent'` on the matching row. -/
def MarkEventAsSent (txHash eventType : String) (logIndex : Nat) (db : OutboxDB) :
    OutboxDB :=
  let newRows := db.rows.map (fun r =>
    if r.txHash == txHash && r.eventType == eventType && r.logIndex == logIndex then
      { r with status := "sent" }
    else r)
  { db with rows := newRows }

/-- `CrawlerRepository.MarkEventAsFailed` (lines 125-132): revert to
`unsent`, but only from `processing`. -/
def MarkEventAsFailed (txHash eventType : String) (logIndex : Nat) (db : OutboxDB) :
    OutboxDB :=
  let newRows := db.rows.map (fun r =>
    if r.txHash == txHash && r.eventType == eventType && r.logIndex == logIndex &&
        r.status == "processing" then
      { r with status := "unsent" }
    else r)
  { db with rows := newRows }

/-! ## Chain scanner loop: `lombard_crawler.go`

The claims about the scanner concern its control flow: which blocks each
tick scans, and what happens to the cursor when resolving a log fails.
Logs are abstracted by an identifier and a resolver
`resolveLog : Nat → Except String Unit` standing for `processVaultEvent`
(receipt fetch, decode, monitored-address filtering, outbox store);
`getLogs` stands for a successful `FilterLogs` range query. -/

/-- The per-log loop of `processVaultEvents` (lines 291-296): on the first
log whose processing fails, the error is logged and the loop `break`s —
and the function still returns `nil`. -/
def processLogs (resolveLog : Nat → Except String Unit) :
    List Nat → Except String Unit
  | [] => .ok ()
  | l :: ls =>
    match resolveLog l with
    | .error _ => .ok ()
    | .ok _ => processLogs resolveLog ls

/-- `processVaultEvents` for one chunk (lines 275-299), with the range
query assumed to succeed. -/
def processVaultEvents (getLogs : Nat → Nat → List Nat)
    (resolveLog : Nat → Except String Unit) (fromBlock toBlock : Nat) :
    Except String Unit :=
  processLogs resolveLog (getLogs fromBlock toBlock)

/-- The chunk loop of `processBlockRange` (lines 243-251): `end := start +
chunkSize - 1` clamped to `toBlock`, but `if end - start < 1 { break }`
exits before scanning a final single-block chunk.  Returns the chunk
ranges the loop actually scans.  (`chunkSize = 0` makes the Go loop spin
forever; the model returns `[]` there, a case no claim reaches.) -/
def chunkRangesGo (chunkSize toBlock : Nat) : Nat → Nat → List (Nat × Nat)
  | 0, _ => []
  | fuel + 1, start =>
    if toBlock < start then []
    else
      let e := min (start + chunkSize - 1) toBlock
      if e - start < 1 then []
      else (start, e) :: chunkRangesGo chunkSize toBlock fuel (start + chunkSize)

/-- The chunk loop, started with enough fuel: each iteration advances
`start` by `chunkSize ≥ 1` and the loop runs only while `start ≤ toBlock`,
so `toBlock + 1 - start` iterations always suffice. -/
def chunkRanges (chunkSize toBlock start : Nat) : List (Nat × Nat) :=
  if chunkSize = 0 then []
  else chunkRangesGo chunkSize toBlock (toBlock + 1 - start) start

/-- The per-chunk body of `processBlockRange` (lines 259-266): scan the
chunk; on a scan error abort with the error; otherwise durably record the
chunk's end block (`UpdateLastProcessedBlock`).  Returns the list of
durable cursor writes and the final result. -/
def cursorWrites (scan : Nat → Nat → Except String Unit) :
    List (Nat × Nat) → List Nat × Except String Unit
  | [] => ([], .ok ())
  | c :: cs =>
    match scan c.1 c.2 with
    | .error msg => ([], .error msg)
    | .ok _ =>
      let rest := cursorWrites scan cs
      (c.2 :: rest.1, rest.2)

/-- `processBlockRange` (lines 239-273) composed from the chunk loop. -/
def processBlockRange (getLogs : Nat → Nat → List Nat)
    (resolveLog : Nat → Except String Unit)
    (chunkSize fromBlock toBlock : Nat) : List Nat × Except String Unit :=
  cursorWrites (processVaultEvents getLogs resolveLog)
    (chunkRanges chunkSize toBlock fromBlock)

/-- `uint64` subtraction (wrapping), for operands below `2 ^ 64`. -/
def sub64 (a b : Nat) : Nat := (a + 2 ^ 64 - b % 2 ^ 64) % 2 ^ 64

/-- One tick of `crawlingLoop` (lines 209-233) when the chain head is
readable and every chunk scan returns `nil` (which, per `processLogs`, is
the case even when individual logs fail): compute `safeBlock = latestBlock
- finalityOffset`, apply the two guards — the first a wrapping `uint64`
comparison — and on the scan path advance the in-memory cursor to
`safeBlock`.  Returns the scanned chunks and the new in-memory
`lastProcessedBlock`. -/
def crawlerTick (finalityOffset chunkSize lastProcessedBlock latestBlock : Nat) :
    List (Nat × Nat) × Nat :=
  let safeBlock := sub64 latestBlock finalityOffset
  if sub64 lastProcessedBlock safeBlock < finalityOffset then
    ([], lastProcessedBlock)
  else if lastProcessedBlock < safeBlock then
    (chunkRanges chunkSize safeBlock (lastProcessedBlock + 1), safeBlock)
  else
    ([], lastProcessedBlock)

/-! ## Derived observations and concrete data used by the claims -/

/-- Number of `in_progress` withdrawal rows for a wallet. -/
def countInProgressForWallet (db : OrderDB) (walletAddress : String) : Nat :=
  (db.rows.filter (isInProgressWithdrawal walletAddress)).length

/-- Number of `in_progress` withdrawal rows for a wallet at one amount. -/
def countInProgressForWalletAmount (db : OrderDB) (walletAddress amount : String) :
    Nat :=
  (db.rows.filter
    (fun r => isInProgressWithdrawal walletAddress r && r.amount == amount)).length

/-- Status of the outbox row with the given natural key. -/
def outboxStatusOf (db : OutboxDB) (txHash : String) (logIndex : Nat) :
    Option String :=
  (db.rows.find? (fun r => r.txHash == txHash && r.logIndex == logIndex)).map
    (fun r => r.status)

/-- A `withdrawal_requested` bus message for wallet `0xW`; its payload has
`min_price = "0"`, so the estimate computation succeeds with a null result. -/
def reqEvent (h : String) (li : Nat) (amt : String) : TransferEvent :=
  { eventType := "withdrawal_requested", txHash := h, blockNumber := 1,
    logIndex := li, txDate := 10, walletAddress := "0xW",
    eventData := some [("min_price", "0")], amount := amt,
    fromAssetName := "LBTCv", toAssetName := "WBTC" }

/-- An `in_progress` withdrawal row for wallet `0xW` at amount `"5"`,
as `processWithdrawalRequested` creates it from `reqEvent "0xa1" 0 "5"`. -/
def c3Existing : Order :=
  { orderId := 0, txHash := "0xa1", logIndex := 0, blockNumber := 1,
    txDate := 10, transferType := "withdrawal", status := "in_progress",
    walletAddress := "0xW", amount := "5", fromAssetName := "LBTCv",
    toAssetName := "WBTC", estimatedAmount := none }

/-- Order store holding exactly `c3Existing`. -/
def c3DB : OrderDB := ⟨[c3Existing], 1⟩

/-- An `in_progress` withdrawal row for wallet `0xW` whose estimate is
already set to `"0.95"`. -/
def c2Existing : Order :=
  { orderId := 0, txHash := "0xb1", logIndex := 0, blockNumber := 1,
    txDate := 10, transferType := "withdrawal", status := "in_progress",
    walletAddress := "0xW", amount := "1", fromAssetName := "LBTCv",
    toAssetName := "WBTC", estimatedAmount := some "0.95" }

/-- Order store holding exactly `c2Existing`. -/
def c2DB : OrderDB := ⟨[c2Existing], 1⟩

/-- A `withdrawal_completed` bus message for wallet `0xW` from a different
transaction than any stored order. -/
def compEvent : TransferEvent :=
  { eventType := "withdrawal_completed", txHash := "0xc1", blockNumber := 2,
    logIndex := 0, txDate := 20, walletAddress := "0xW", eventData := some [],
    amount := "0.93", fromAssetName := "LBTCv", toAssetName := "WBTC" }

/-- An `in_progress` withdrawal row with no estimate yet, for the frame
claim about completion reconciliation. -/
def c10Existing : Order :=
  { orderId := 0, txHash := "0xb7", logIndex := 3, blockNumber := 4,
    txDate := 11, transferType := "withdrawal", status := "in_progress",
    walletAddress := "0xW", amount := "2", fromAssetName := "LBTCv",
    toAssetName := "WBTC", estimatedAmount := none }

/-- Order store holding exactly `c10Existing`. -/
def c10DB : OrderDB := ⟨[c10Existing], 1⟩

/-- A deposit discovered by the scanner, as stored into the outbox. -/
def outboxDeposit : OutboxEvent :=
  { txHash := "0xd1", eventType := "deposit", status := "unsent",
    blockNumber := 5, logIndex := 0, txDate := 3, walletAddress := "0xW",
    eventBlob := "{}", amount := "1", fromAssetName := "WBTC",
    toAssetName := "LBTCv", createdAt := 0 }

/-- A second deposit, for the idempotent-ingestion run. -/
def outboxDepositB : OutboxEvent :=
  { txHash := "0xd2", eventType := "deposit", status := "unsent",
    blockNumber := 6, logIndex := 1, txDate := 4, walletAddress := "0xW",
    eventBlob := "{}", amount := "2", fromAssetName := "WBTC",
    toAssetName := "LBTCv", createdAt := 0 }

/-- A log resolver in which log `0` fails to decode (as
`processDepositEvent` fails on malformed data) and every other log
processes fine. -/
def failingResolver : Nat → Except String Unit :=
  fun l => if l == 0 then .error "failed to unpack Deposit event data" else .ok ()

end Yield

namespace Yield

/-! # Supporting lemmas

## Decimal digits and rendering -/

theorem natDigitsGo_eq_digits (fuel : Nat) :
    ∀ n, n ≤ fuel → natDigitsGo fuel n = Nat.digits 10 n := by
  induction fuel with
  | zero =>
    intro n hn
    have hn0 : n = 0 := by omega
    subst hn0
    simp [natDigitsGo]
  | succ fuel ih =>
    intro n hn
    match n with
    | 0 => simp [natDigitsGo]
    | k + 1 =>
      have hdiv : (k + 1) / 10 ≤ fuel := by
        have := Nat.div_lt_self (Nat.succ_pos k) (by norm_num : 1 < 10)
        omega
      have hstep : natDigitsGo (fuel + 1) (k + 1)
          = (k + 1) % 10 :: natDigitsGo fuel ((k + 1) / 10) := rfl
      rw [hstep, ih _ hdiv, ← Nat.digits_def' (by norm_num : 1 < 10) (Nat.succ_pos k)]

theorem natDigitsLE_eq_digits (n : Nat) : natDigitsLE n = Nat.digits 10 n :=
  natDigitsGo_eq_digits n n le_rfl

theorem digitVal_digitChar (d : Nat) (h : d < 10) : digitVal (digitChar d) = d := by
  interval_cases d <;> rfl

theorem isDigit_digitChar (d : Nat) (h : d < 10) : (digitChar d).isDigit = true := by
  interval_cases d <;> rfl

theorem isDigit_ne_dot (c : Char) (h : c.isDigit = true) : c ≠ '.' := by
  intro hc
  subst hc
  simp [Char.isDigit] at h

theorem chrsVal_from (a : Nat) (l : List Char) :
    l.foldl (fun x c => 10 * x + digitVal c) a = a * 10 ^ l.length + chrsVal l := by
  induction l generalizing a with
  | nil => simp [chrsVal]
  | cons c t ih =>
    have h1 : List.foldl (fun x c => 10 * x + digitVal c) a (c :: t)
        = List.foldl (fun x c => 10 * x + digitVal c) (10 * a + digitVal c) t := rfl
    have h2 : chrsVal (c :: t)
        = List.foldl (fun x c => 10 * x + digitVal c) (10 * 0 + digitVal c) t := rfl
    rw [h1, ih, h2, ih, List.length_cons]
    ring

theorem chrsVal_append (A B : List Char) :
    chrsVal (A ++ B) = chrsVal A * 10 ^ B.length + chrsVal B := by
  show List.foldl _ 0 (A ++ B) = _
  rw [List.foldl_append]
  exact chrsVal_from _ B

theorem chrsVal_replicate_zero (k : Nat) : chrsVal (List.replicate k '0') = 0 := by
  induction k with
  | zero => rfl
  | succ k ih =>
    show chrsVal ('0' :: List.replicate k '0') = 0
    have h2 : chrsVal ('0' :: List.replicate k '0')
        = List.foldl (fun x c => 10 * x + digitVal c) (10 * 0 + digitVal '0')
            (List.replicate k '0') := rfl
    rw [h2, chrsVal_from]
    simp [ih, show digitVal '0' = 0 from rfl]

theorem chrsVal_reverse_map (L : List Nat) (h : ∀ d ∈ L, d < 10) :
    chrsVal (L.reverse.map digitChar) = Nat.ofDigits 10 L := by
  induction L with
  | nil => rfl
  | cons x T ih =>
    rw [List.reverse_cons, List.map_append, chrsVal_append]
    rw [ih (fun d hd => h d (List.mem_cons_of_mem _ hd))]
    have hone : chrsVal (List.map digitChar [x]) = digitVal (digitChar x) := by
      show 10 * 0 + digitVal (digitChar x) = digitVal (digitChar x)
      omega
    rw [hone, digitVal_digitChar x (h x (List.mem_cons_self _ _)), Nat.ofDigits_cons]
    simp
    ring

theorem chrsVal_natChars (n : Nat) : chrsVal (natChars n) = n := by
  by_cases hn : n = 0
  · subst hn; rfl
  · rw [natChars, if_neg hn, natDigits, natDigitsLE_eq_digits]
    rw [chrsVal_reverse_map _ (fun d hd => Nat.digits_lt_base (by norm_num) hd)]
    exact Nat.ofDigits_digits 10 n

theorem natChars_ne_nil (n : Nat) : natChars n ≠ [] := by
  by_cases hn : n = 0
  · subst hn; simp [natChars]
  · rw [natChars, if_neg hn, natDigits, natDigitsLE_eq_digits]
    simp [Nat.digits_ne_nil_iff_ne_zero.mpr hn]

theorem natChars_all_digit (n : Nat) : ∀ c ∈ natChars n, c.isDigit = true := by
  by_cases hn : n = 0
  · subst hn
    intro c hc
    simp [natChars] at hc
    subst hc
    rfl
  · rw [natChars, if_neg hn, natDigits, natDigitsLE_eq_digits]
    intro c hc
    simp only [List.mem_map, List.mem_reverse] at hc
    obtain ⟨d, hd, rfl⟩ := hc
    exact isDigit_digitChar d (Nat.digits_lt_base (by norm_num) hd)

theorem natChars_length_le (n d : Nat) (hn : n ≠ 0) (h : n < 10 ^ d) :
    (natChars n).length ≤ d := by
  rw [natChars, if_neg hn, natDigits, natDigitsLE_eq_digits]
  simp only [List.length_map, List.length_reverse]
  rw [Nat.digits_len 10 n (by norm_num) hn]
  have := Nat.log_lt_of_lt_pow hn h
  omega

theorem takeWhile_no_dot_all (l : List Char) (h : ∀ c ∈ l, c ≠ '.') :
    l.takeWhile (fun c => c ≠ '.') = l :=
  List.takeWhile_eq_self_iff.mpr (by simpa using h)

theorem dropWhile_no_dot_all (l : List Char) (h : ∀ c ∈ l, c ≠ '.') :
    l.dropWhile (fun c => c ≠ '.') = [] :=
  List.dropWhile_eq_nil_iff.mpr (by simpa using h)

theorem takeWhile_no_dot_append (a b : List Char) (h : ∀ c ∈ a, c ≠ '.') :
    (a ++ '.' :: b).takeWhile (fun c => c ≠ '.') = a := by
  induction a with
  | nil => simp
  | cons c t ih =>
    have hc : c ≠ '.' := h c (List.mem_cons_self _ _)
    have ih2 := ih (fun x hx => h x (List.mem_cons_of_mem _ hx))
    rw [List.cons_append, List.takeWhile_cons]
    simp only [decide_not] at ih2 ⊢
    simp [hc, ih2]

theorem dropWhile_no_dot_append (a b : List Char) (h : ∀ c ∈ a, c ≠ '.') :
    (a ++ '.' :: b).dropWhile (fun c => c ≠ '.') = '.' :: b := by
  induction a with
  | nil => simp
  | cons c t ih =>
    have hc : c ≠ '.' := h c (List.mem_cons_self _ _)
    have ih2 := ih (fun x hx => h x (List.mem_cons_of_mem _ hx))
    rw [List.cons_append, List.dropWhile_cons]
    simp only [decide_not] at ih2 ⊢
    simp [hc, ih2]

theorem trimRightZeros_spec (l : List Char) :
    ∃ k, l = trimRightZeros l ++ List.replicate k '0' ∧
      (trimRightZeros l).getLast? ≠ some '0' := by
  refine ⟨(l.reverse.takeWhile (fun c => c = '0')).length, ?_, ?_⟩
  · have hall : ∀ c ∈ l.reverse.takeWhile (fun c => c = '0'), c = '0' := by
      intro c hc
      have := List.mem_takeWhile_imp hc
      simpa using this
    have hrep := List.eq_replicate_of_mem hall
    conv_lhs => rw [← l.reverse_reverse,
      ← List.takeWhile_append_dropWhile (fun c => decide (c = '0')) l.reverse]
    rw [List.reverse_append, trimRightZeros]
    congr 1
    conv_lhs => rw [hrep, List.reverse_replicate]
  · rw [trimRightZeros, List.getLast?_reverse]
    intro hcontra
    have := List.head?_dropWhile_not (fun c => decide (c = '0')) l.reverse
    rw [hcontra] at this
    simp at this

theorem decodeDecimal_no_dot (l : List Char) (hl : l ≠ [])
    (hd : ∀ c ∈ l, c.isDigit = true) :
    decodeDecimal l = some (chrsVal l, []) := by
  have hnd : ∀ c ∈ l, c ≠ '.' := fun c hc => isDigit_ne_dot c (hd c hc)
  have hspan : l.span (fun c => c ≠ '.') = (l, []) := by
    rw [List.span_eq_take_drop, takeWhile_no_dot_all l hnd, dropWhile_no_dot_all l hnd]
  unfold decodeDecimal
  rw [hspan]
  have hall : l.all Char.isDigit = true := List.all_eq_true.mpr hd
  simp [hl, hall]

theorem decodeDecimal_with_dot (a f : List Char) (ha : a ≠ [])
    (hda : ∀ c ∈ a, c.isDigit = true) (hf : f ≠ [])
    (hdf : ∀ c ∈ f, c.isDigit = true) :
    decodeDecimal (a ++ '.' :: f) = some (chrsVal a, f) := by
  have hnd : ∀ c ∈ a, c ≠ '.' := fun c hc => isDigit_ne_dot c (hda c hc)
  have hspan : (a ++ '.' :: f).span (fun c => c ≠ '.') = (a, '.' :: f) := by
    rw [List.span_eq_take_drop, takeWhile_no_dot_append a f hnd,
      dropWhile_no_dot_append a f hnd]
  unfold decodeDecimal
  rw [hspan]
  have halla : a.all Char.isDigit = true := List.all_eq_true.mpr hda
  have hallf : f.all Char.isDigit = true := List.all_eq_true.mpr hdf
  have hmem : '.' ∉ f := fun hmem => isDigit_ne_dot '.' (hdf '.' hmem) rfl
  simp [ha, halla, hf, hallf, hmem]

/-! ## Order store and materializer lemmas -/

theorem filter_length_mono {α : Type} (p q : α → Bool) (l : List α)
    (h : ∀ x ∈ l, q x = true → p x = true) :
    (l.filter q).length ≤ (l.filter p).length := by
  induction l with
  | nil => simp
  | cons x t ih =>
    have ih2 := ih (fun y hy => h y (List.mem_cons_of_mem _ hy))
    by_cases hq : q x = true
    · rw [List.filter_cons_of_pos hq, List.filter_cons_of_pos (h x (List.mem_cons_self _ _) hq)]
      simpa using ih2
    · rw [List.filter_cons_of_neg (by simpa using hq)]
      by_cases hp : p x = true
      · rw [List.filter_cons_of_pos hp]
        simp only [List.length_cons]
        omega
      · rw [List.filter_cons_of_neg (by simpa using hp)]
        exact ih2

theorem two_le_length_of_mem_ne {α : Type} {l : List α} {x y : α}
    (hx : x ∈ l) (hy : y ∈ l) (hne : x ≠ y) : 2 ≤ l.length := by
  induction l with
  | nil => cases hx
  | cons z t ih =>
    rcases List.mem_cons.mp hx with rfl | hx'
    · have hy' : y ∈ t := by
        rcases List.mem_cons.mp hy with rfl | h
        · exact absurd rfl hne
        · exact h
      have := List.length_pos.mpr (List.ne_nil_of_mem hy')
      simp only [List.length_cons]
      omega
    · have := List.length_pos.mpr (List.ne_nil_of_mem hx')
      simp only [List.length_cons]
      omega

theorem keyB_eq_true_iff (q o : Order) :
    (q.txHash == o.txHash && q.logIndex == o.logIndex) = true ↔
      q.txHash = o.txHash ∧ q.logIndex = o.logIndex := by
  simp

theorem eq_of_mem_mem_keys {l : List Order} {q r : Order}
    (hk : l.Pairwise (fun x y => ¬ (x.txHash = y.txHash ∧ x.logIndex = y.logIndex)))
    (hq : q ∈ l) (hr : r ∈ l)
    (hkey : q.txHash = r.txHash ∧ q.logIndex = r.logIndex) : q = r := by
  induction l with
  | nil => cases hq
  | cons x t ih =>
    rcases List.pairwise_cons.mp hk with ⟨hx, ht⟩
    rcases List.mem_cons.mp hq with rfl | hq'
    · rcases List.mem_cons.mp hr with rfl | hr'
      · rfl
      · exact absurd hkey (hx r hr')
    · rcases List.mem_cons.mp hr with rfl | hr'
      · exact absurd ⟨hkey.1.symm, hkey.2.symm⟩ (hx q hq')
      · exact ih ht hq' hr'

theorem eq_of_mem_mem_ids {l : List Order} {q r : Order}
    (hk : l.Pairwise (fun x y => x.orderId ≠ y.orderId))
    (hq : q ∈ l) (hr : r ∈ l) (hid : q.orderId = r.orderId) : q = r := by
  induction l with
  | nil => cases hq
  | cons x t ih =>
    rcases List.pairwise_cons.mp hk with ⟨hx, ht⟩
    rcases List.mem_cons.mp hq with rfl | hq'
    · rcases List.mem_cons.mp hr with rfl | hr'
      · rfl
      · exact absurd hid (hx r hr')
    · rcases List.mem_cons.mp hr with rfl | hr'
      · exact absurd hid.symm (hx q hq')
      · exact ih ht hq' hr'

theorem find?_key_eq_some {l : List Order} {r : Order} (o : Order)
    (hk : l.Pairwise (fun x y => ¬ (x.txHash = y.txHash ∧ x.logIndex = y.logIndex)))
    (hr : r ∈ l) (hkey : r.txHash = o.txHash ∧ r.logIndex = o.logIndex) :
    l.find? (fun q => q.txHash == o.txHash && q.logIndex == o.logIndex) = some r := by
  induction l with
  | nil => cases hr
  | cons x t ih =>
    rcases List.pairwise_cons.mp hk with ⟨hx, ht⟩
    by_cases hmatch : (x.txHash == o.txHash && x.logIndex == o.logIndex) = true
    · have hxkey := (keyB_eq_true_iff x o).mp hmatch
      have hreq : r = x := by
        rcases List.mem_cons.mp hr with rfl | hr'
        · rfl
        · exact absurd ⟨hxkey.1.trans hkey.1.symm, hxkey.2.trans hkey.2.symm⟩ (hx r hr')
      rw [List.find?_cons, hmatch, hreq]
    · have hfalse : (x.txHash == o.txHash && x.logIndex == o.logIndex) = false := by
        simpa using hmatch
      rw [List.find?_cons, hfalse]
      have hrx : r ≠ x := by
        intro heq
        subst heq
        exact hmatch ((keyB_eq_true_iff r o).mpr hkey)
      exact ih ht ((List.mem_cons.mp hr).resolve_left hrx)

theorem keyB_filter_length_le_one (o : Order) {l : List Order}
    (hk : l.Pairwise (fun x y => ¬ (x.txHash = y.txHash ∧ x.logIndex = y.logIndex))) :
    (l.filter (fun q => q.txHash == o.txHash && q.logIndex == o.logIndex)).length ≤ 1 := by
  induction l with
  | nil => simp
  | cons x t ih =>
    rcases List.pairwise_cons.mp hk with ⟨hx, ht⟩
    by_cases hmatch : (x.txHash == o.txHash && x.logIndex == o.logIndex) = true
    · rw [List.filter_cons, if_pos hmatch]
      have hxkey := (keyB_eq_true_iff x o).mp hmatch
      have hnil : t.filter (fun q => q.txHash == o.txHash && q.logIndex == o.logIndex)
          = [] := by
        rw [List.filter_eq_nil_iff]
        intro q hq hqmatch
        have hqkey := (keyB_eq_true_iff q o).mp hqmatch
        exact hx q hq ⟨hxkey.1.trans hqkey.1.symm, hxkey.2.trans hqkey.2.symm⟩
      rw [hnil]
      simp
    · rw [List.filter_cons, if_neg hmatch]
      exact ih ht

theorem pickLatest_go_mem {t : List Order} :
    ∀ {b r : Order},
      t.foldl (fun acc r =>
        match acc with
        | none => some r
        | some b => if b.txDate < r.txDate then some r else some b) (some b) = some r →
      r = b ∨ r ∈ t := by
  induction t with
  | nil =>
    intro b r h
    exact Or.inl (Option.some.inj h).symm
  | cons x t ih =>
    intro b r h
    simp only [List.foldl_cons] at h
    by_cases hlt : b.txDate < x.txDate
    · rw [if_pos hlt] at h
      rcases ih h with rfl | hmem
      · exact Or.inr (List.mem_cons_self _ _)
      · exact Or.inr (List.mem_cons_of_mem _ hmem)
    · rw [if_neg hlt] at h
      rcases ih h with rfl | hmem
      · exact Or.inl rfl
      · exact Or.inr (List.mem_cons_of_mem _ hmem)

theorem pickLatest_mem {l : List Order} {r : Order} (h : pickLatest l = some r) :
    r ∈ l := by
  cases l with
  | nil => cases h
  | cons x t =>
    have h2 : t.foldl (fun acc r =>
        match acc with
        | none => some r
        | some b => if b.txDate < r.txDate then some r else some b) (some x) = some r := h
    rcases pickLatest_go_mem h2 with rfl | hmem
    · exact List.mem_cons_self _ _
    · exact List.mem_cons_of_mem _ hmem

theorem pickLatest_go_ne_none {t : List Order} :
    ∀ {b : Order},
      t.foldl (fun acc r =>
        match acc with
        | none => some r
        | some b => if b.txDate < r.txDate then some r else some b) (some b) ≠ none := by
  induction t with
  | nil => intro b h; cases h
  | cons x t ih =>
    intro b h
    simp only [List.foldl_cons] at h
    by_cases hlt : b.txDate < x.txDate
    · rw [if_pos hlt] at h; exact ih h
    · rw [if_neg hlt] at h; exact ih h

theorem pickLatest_eq_none {l : List Order} (h : pickLatest l = none) : l = [] := by
  cases l with
  | nil => rfl
  | cons x t => exact absurd h pickLatest_go_ne_none

theorem pickLatest_go_max {t : List Order} :
    ∀ {b r : Order},
      t.foldl (fun acc r =>
        match acc with
        | none => some r
        | some b => if b.txDate < r.txDate then some r else some b) (some b) = some r →
      b.txDate ≤ r.txDate ∧ ∀ q ∈ t, q.txDate ≤ r.txDate := by
  induction t with
  | nil =>
    intro b r h
    cases Option.some.inj h
    exact ⟨le_rfl, by simp⟩
  | cons x t ih =>
    intro b r h
    simp only [List.foldl_cons] at h
    by_cases hlt : b.txDate < x.txDate
    · rw [if_pos hlt] at h
      obtain ⟨hb, hall⟩ := ih h
      refine ⟨by omega, ?_⟩
      intro q hq
      rcases List.mem_cons.mp hq with rfl | hq'
      · exact hb
      · exact hall q hq'
    · rw [if_neg hlt] at h
      obtain ⟨hb, hall⟩ := ih h
      refine ⟨hb, ?_⟩
      intro q hq
      rcases List.mem_cons.mp hq with rfl | hq'
      · omega
      · exact hall q hq'

theorem pickLatest_max {l : List Order} {r : Order} (h : pickLatest l = some r) :
    ∀ q ∈ l, q.txDate ≤ r.txDate := by
  cases l with
  | nil => simp
  | cons x t =>
    have h2 : t.foldl (fun acc r =>
        match acc with
        | none => some r
        | some b => if b.txDate < r.txDate then some r else some b) (some x) = some r := h
    obtain ⟨hb, hall⟩ := pickLatest_go_max h2
    intro q hq
    rcases List.mem_cons.mp hq with rfl | hq'
    · exact hb
    · exact hall q hq'

theorem upsertOrder_eq_update (o : Order) (db : OrderDB) (r : Order)
    (hfind : db.rows.find? (fun q => q.txHash == o.txHash && q.logIndex == o.logIndex)
      = some r)
    (hid : o.orderId = r.orderId) :
    UpsertOrder o db = some { db with rows := db.rows.map (fun q =>
      if q.txHash == o.txHash && q.logIndex == o.logIndex then o else q) } := by
  unfold UpsertOrder
  split
  · rename_i r2 heq
    have h2 := Option.some.inj (hfind.symm.trans heq)
    subst h2
    rw [if_neg (fun hcon => hcon.1 hid)]
  · rename_i heq
    cases hfind.symm.trans heq

theorem upsertOrder_eq_insert (o : Order) (db : OrderDB)
    (hfind : db.rows.find? (fun q => q.txHash == o.txHash && q.logIndex == o.logIndex)
      = none)
    (hids : ∀ q ∈ db.rows, q.orderId ≠ o.orderId) :
    UpsertOrder o db = some { db with rows := db.rows ++ [o] } := by
  have hany : db.rows.any (fun r2 => r2.orderId == o.orderId) = false := by
    rw [List.any_eq_false]
    intro q hq
    simpa using hids q hq
  unfold UpsertOrder
  split
  · rename_i r2 heq
    cases hfind.symm.trans heq
  · rw [if_neg (by simp [hany])]

theorem upsertOrder_some_elim (o : Order) (db db2 : OrderDB)
    (h : UpsertOrder o db = some db2) :
    db2.nextId = db.nextId ∧
    ((∃ r, db.rows.find? (fun q => q.txHash == o.txHash && q.logIndex == o.logIndex)
        = some r ∧
      ¬ (o.orderId ≠ r.orderId ∧
          db.rows.any (fun q => q.orderId == o.orderId) = true) ∧
      db2.rows = db.rows.map (fun q =>
        if q.txHash == o.txHash && q.logIndex == o.logIndex then o else q)) ∨
    (db.rows.find? (fun q => q.txHash == o.txHash && q.logIndex == o.logIndex) = none ∧
      (∀ q ∈ db.rows, q.orderId ≠ o.orderId) ∧
      db2.rows = db.rows ++ [o])) := by
  unfold UpsertOrder at h
  split at h
  · rename_i r hfind
    split at h
    · cases h
    · rename_i hcond
      have h2 := Option.some.inj h
      exact ⟨by rw [← h2], Or.inl ⟨r, hfind, hcond, by rw [← h2]⟩⟩
  · rename_i hfind
    split at h
    · cases h
    · rename_i hany
      have h2 := Option.some.inj h
      refine ⟨by rw [← h2], Or.inr ⟨hfind, ?_, by rw [← h2]⟩⟩
      intro q hq heq
      exact hany (List.any_eq_true.mpr ⟨q, hq, by simpa using heq⟩)

theorem upsertOrder_wf (o : Order) (db db2 : OrderDB) (hwf : db.WF)
    (ho : o.orderId < db.nextId) (h : UpsertOrder o db = some db2) : db2.WF := by
  obtain ⟨hkeys, hids, hbound⟩ := hwf
  obtain ⟨hnext, hcases⟩ := upsertOrder_some_elim o db db2 h
  rcases hcases with ⟨r, hfind, hsucc, hrows⟩ | ⟨hfind, hfresh, hrows⟩
  · -- update branch
    have hrmem : r ∈ db.rows := List.mem_of_find?_eq_some hfind
    have hfs := List.find?_some hfind
    have hrkey : r.txHash = o.txHash ∧ r.logIndex = o.logIndex :=
      (keyB_eq_true_iff r o).mp hfs
    have hkeypt : ∀ q ∈ db.rows,
        ((if q.txHash == o.txHash && q.logIndex == o.logIndex then o else q).txHash
            = q.txHash ∧
          (if q.txHash == o.txHash && q.logIndex == o.logIndex then o else q).logIndex
            = q.logIndex) := by
      intro q _
      by_cases hm : (q.txHash == o.txHash && q.logIndex == o.logIndex) = true
      · have hqk := (keyB_eq_true_iff q o).mp hm
        rw [if_pos hm]
        exact ⟨hqk.1.symm, hqk.2.symm⟩
      · rw [if_neg hm]
        exact ⟨rfl, rfl⟩
    refine ⟨?_, ?_, ?_⟩
    · rw [hrows]
      rw [List.pairwise_map]
      refine hkeys.imp_of_mem ?_
      intro a b ha hb hR hcon
      exact hR ⟨((hkeypt a ha).1.symm.trans hcon.1).trans (hkeypt b hb).1,
        ((hkeypt a ha).2.symm.trans hcon.2).trans (hkeypt b hb).2⟩
    · -- ids
      rw [hrows, List.pairwise_map]
      by_cases hido : o.orderId = r.orderId
      · -- ids are pointwise preserved
        have hidpt : ∀ q ∈ db.rows,
            (if q.txHash == o.txHash && q.logIndex == o.logIndex then o else q).orderId
              = q.orderId := by
          intro q hq
          by_cases hm : (q.txHash == o.txHash && q.logIndex == o.logIndex) = true
          · have hqk := (keyB_eq_true_iff q o).mp hm
            have : q = r := eq_of_mem_mem_keys hkeys hq hrmem
              ⟨hqk.1.trans hrkey.1.symm, hqk.2.trans hrkey.2.symm⟩
            rw [if_pos hm, hido, this]
          · rw [if_neg hm]
        refine hids.imp_of_mem ?_
        intro a b ha hb hR
        rw [hidpt a ha, hidpt b hb]
        exact hR
      · -- fresh id: no row carries o's id
        have hany : ∀ q ∈ db.rows, q.orderId ≠ o.orderId := by
          intro q hq heq
          exact hsucc ⟨hido, List.any_eq_true.mpr ⟨q, hq, by simpa using heq⟩⟩
        have hcomb := hkeys.and hids
        refine hcomb.imp_of_mem ?_
        intro a b ha hb hR
        by_cases hma : (a.txHash == o.txHash && a.logIndex == o.logIndex) = true
        · by_cases hmb : (b.txHash == o.txHash && b.logIndex == o.logIndex) = true
          · have hak := (keyB_eq_true_iff a o).mp hma
            have hbk := (keyB_eq_true_iff b o).mp hmb
            exact absurd ⟨hak.1.trans hbk.1.symm, hak.2.trans hbk.2.symm⟩ hR.1
          · rw [if_pos hma, if_neg hmb]
            exact fun heq => hany b hb heq.symm
        · by_cases hmb : (b.txHash == o.txHash && b.logIndex == o.logIndex) = true
          · rw [if_neg hma, if_pos hmb]
            exact hany a ha
          · rw [if_neg hma, if_neg hmb]
            exact hR.2
    · -- bound
      intro q2 hq2
      rw [hrows] at hq2
      obtain ⟨q, hq, rfl⟩ := List.mem_map.mp hq2
      rw [hnext]
      by_cases hm : (q.txHash == o.txHash && q.logIndex == o.logIndex) = true
      · rw [if_pos hm]; exact ho
      · rw [if_neg hm]; exact hbound q hq
  · -- insert branch
    have hnokey : ∀ q ∈ db.rows, ¬ (q.txHash = o.txHash ∧ q.logIndex = o.logIndex) := by
      intro q hq hcon
      have := List.find?_eq_none.mp hfind q hq
      exact this ((keyB_eq_true_iff q o).mpr hcon)
    refine ⟨?_, ?_, ?_⟩
    · rw [hrows]
      rw [List.pairwise_append]
      refine ⟨hkeys, List.pairwise_singleton _ _, ?_⟩
      intro a ha b hb
      rw [List.mem_singleton.mp hb]
      exact hnokey a ha
    · rw [hrows, List.pairwise_append]
      refine ⟨hids, List.pairwise_singleton _ _, ?_⟩
      intro a ha b hb
      rw [List.mem_singleton.mp hb]
      exact hfresh a ha
    · intro q2 hq2
      rw [hrows] at hq2
      rw [hnext]
      rcases List.mem_append.mp hq2 with hq | hq
      · exact hbound q2 hq
      · rw [List.mem_singleton.mp hq]
        exact ho

theorem upsertOrder_count_of_p_false (o : Order) (db db2 : OrderDB) (p : Order → Bool)
    (hp : p o = false) (h : UpsertOrder o db = some db2) :
    (db2.rows.filter p).length ≤ (db.rows.filter p).length := by
  obtain ⟨_, hcases⟩ := upsertOrder_some_elim o db db2 h
  rcases hcases with ⟨r, _, _, hrows⟩ | ⟨_, _, hrows⟩
  · rw [hrows, List.filter_map, List.length_map]
    refine filter_length_mono _ _ _ ?_
    intro x _ hpf
    simp only [Function.comp] at hpf
    by_cases hm : (x.txHash == o.txHash && x.logIndex == o.logIndex) = true
    · rw [if_pos hm] at hpf
      exact absurd hpf (by simp [hp])
    · rwa [if_neg hm] at hpf
  · rw [hrows, List.filter_append]
    simp [hp]

theorem upsertOrder_count_of_p_zero (o : Order) (db db2 : OrderDB) (p : Order → Bool)
    (hk : db.rows.Pairwise (fun x y => ¬ (x.txHash = y.txHash ∧ x.logIndex = y.logIndex)))
    (hp : p o = true) (h0 : (db.rows.filter p).length = 0)
    (h : UpsertOrder o db = some db2) :
    (db2.rows.filter p).length ≤ 1 := by
  have hnone : ∀ x ∈ db.rows, p x = false := by
    intro x hx
    by_cases hpx : p x = true
    · exfalso
      have : x ∈ db.rows.filter p := List.mem_filter.mpr ⟨hx, hpx⟩
      have := List.length_pos.mpr (List.ne_nil_of_mem this)
      omega
    · simpa using hpx
  obtain ⟨_, hcases⟩ := upsertOrder_some_elim o db db2 h
  rcases hcases with ⟨r, _, _, hrows⟩ | ⟨_, _, hrows⟩
  · rw [hrows, List.filter_map, List.length_map]
    calc (db.rows.filter (p ∘ fun q =>
          if q.txHash == o.txHash && q.logIndex == o.logIndex then o else q)).length
        ≤ (db.rows.filter (fun q =>
            q.txHash == o.txHash && q.logIndex == o.logIndex)).length := by
          refine filter_length_mono _ _ _ ?_
          intro x hx hpf
          simp only [Function.comp] at hpf
          by_cases hm : (x.txHash == o.txHash && x.logIndex == o.logIndex) = true
          · exact hm
          · rw [if_neg hm] at hpf
            rw [hnone x hx] at hpf
            cases hpf
      _ ≤ 1 := keyB_filter_length_le_one o hk
  · rw [hrows, List.filter_append]
    have : db.rows.filter p = [] := List.filter_eq_nil_iff.mpr
      (fun x hx => by simp [hnone x hx])
    rw [this]
    simp [hp]

theorem upsertOrder_count_of_p_one (o : Order) (db db2 : OrderDB) (p : Order → Bool)
    (ex : Order)
    (hk : db.rows.Pairwise (fun x y => ¬ (x.txHash = y.txHash ∧ x.logIndex = y.logIndex)))
    (hi : db.rows.Pairwise (fun x y => x.orderId ≠ y.orderId))
    (hex : ex ∈ db.rows) (hpex : p ex = true)
    (hid : o.orderId = ex.orderId)
    (hcount : (db.rows.filter p).length ≤ 1)
    (h : UpsertOrder o db = some db2) :
    (db2.rows.filter p).length ≤ 1 := by
  obtain ⟨_, hcases⟩ := upsertOrder_some_elim o db db2 h
  rcases hcases with ⟨r, hfind, hsucc, hrows⟩ | ⟨_, hfresh, hrows⟩
  · have hrmem : r ∈ db.rows := List.mem_of_find?_eq_some hfind
    have hfs := List.find?_some hfind
    have hrkey : r.txHash = o.txHash ∧ r.logIndex = o.logIndex :=
      (keyB_eq_true_iff r o).mp hfs
    have hido : o.orderId = r.orderId := by
      by_cases hcon : o.orderId = r.orderId
      · exact hcon
      · exact absurd ⟨hcon, List.any_eq_true.mpr ⟨ex, hex, by simpa using hid.symm⟩⟩ hsucc
    have hrex : r = ex := eq_of_mem_mem_ids hi hrmem hex (hido.symm.trans hid)
    rw [hrows, List.filter_map, List.length_map]
    calc (db.rows.filter (p ∘ fun q =>
          if q.txHash == o.txHash && q.logIndex == o.logIndex then o else q)).length
        ≤ (db.rows.filter (fun q =>
            q.txHash == o.txHash && q.logIndex == o.logIndex)).length := by
          refine filter_length_mono _ _ _ ?_
          intro x hx hpf
          simp only [Function.comp] at hpf
          by_cases hm : (x.txHash == o.txHash && x.logIndex == o.logIndex) = true
          · exact hm
          · exfalso
            rw [if_neg hm] at hpf
            have hxmem : x ∈ db.rows.filter p := List.mem_filter.mpr ⟨hx, hpf⟩
            have hexmem : ex ∈ db.rows.filter p := List.mem_filter.mpr ⟨hex, hpex⟩
            have hxne : x ≠ ex := by
              intro heq
              subst heq
              exact hm ((keyB_eq_true_iff x o).mpr
                ⟨hrex ▸ hrkey.1, hrex ▸ hrkey.2⟩)
            have := two_le_length_of_mem_ne hxmem hexmem hxne
            omega
      _ ≤ 1 := keyB_filter_length_le_one o hk
  · exact absurd hid.symm (hfresh ex hex)

theorem getInProgressWA_some {db : OrderDB} {w a : String} {r : Order}
    (h : GetInProgressWithdrawalByWalletAndAmount db w a = some r) :
    r ∈ db.rows ∧ isInProgressWithdrawal w r = true ∧ r.amount = a := by
  unfold GetInProgressWithdrawalByWalletAndAmount at h
  have hmem := pickLatest_mem h
  have hf := List.mem_filter.mp hmem
  have h2 := hf.2
  rw [Bool.and_eq_true] at h2
  exact ⟨hf.1, h2.1, by simpa using h2.2⟩

theorem getInProgressWA_none {db : OrderDB} {w a : String}
    (h : GetInProgressWithdrawalByWalletAndAmount db w a = none) :
    db.rows.filter (fun r => isInProgressWithdrawal w r && r.amount == a) = [] := by
  unfold GetInProgressWithdrawalByWalletAndAmount at h
  exact pickLatest_eq_none h

theorem getLastIPW_some {db : OrderDB} {w : String} {r : Order}
    (h : GetLastInProgressWithdrawalByWallet db w = some r) :
    r ∈ db.rows ∧ isInProgressWithdrawal w r = true := by
  unfold GetLastInProgressWithdrawalByWallet at h
  have hmem := pickLatest_mem h
  have hf := List.mem_filter.mp hmem
  exact ⟨hf.1, hf.2⟩

theorem getLastIPW_max {db : OrderDB} {w : String} {r : Order}
    (h : GetLastInProgressWithdrawalByWallet db w = some r) :
    ∀ q ∈ db.rows, isInProgressWithdrawal w q = true → q.txDate ≤ r.txDate := by
  unfold GetLastInProgressWithdrawalByWallet at h
  intro q hq hpq
  exact pickLatest_max h q (List.mem_filter.mpr ⟨hq, hpq⟩)

theorem processWithdrawalCompleted_update (db : OrderDB) (e : TransferEvent)
    (r : Order) (hwf : db.WF)
    (hlook : GetLastInProgressWithdrawalByWallet db e.walletAddress = some r) :
    processWithdrawalCompleted e db = .ok { db with
      rows := db.rows.map (fun q =>
        if q.txHash == r.txHash && q.logIndex == r.logIndex then
          { r with
            status := "completed",
            estimatedAmount :=
              match r.estimatedAmount with
              | none => some e.amount
              | some v => some v }
        else q) } := by
  obtain ⟨hrmem, _⟩ := getLastIPW_some hlook
  simp only [processWithdrawalCompleted]
  split
  · rename_i hl
    rw [hlook] at hl
    cases hl
  · rename_i lw hl
    have h2 := Option.some.inj (hlook.symm.trans hl)
    subst h2
    have hup := upsertOrder_eq_update
      { r with
        status := "completed",
        estimatedAmount :=
          match r.estimatedAmount with
          | none => some e.amount
          | some v => some v } db r
      (find?_key_eq_some _ hwf.1 hrmem ⟨rfl, rfl⟩) rfl
    rw [hup]

theorem processWithdrawalCompleted_insert (db : OrderDB) (e : TransferEvent)
    (hwf : db.WF)
    (hlook : GetLastInProgressWithdrawalByWallet db e.walletAddress = none)
    (hkeyfresh : ∀ q ∈ db.rows, ¬ (q.txHash = e.txHash ∧ q.logIndex = e.logIndex)) :
    processWithdrawalCompleted e db = .ok {
      rows := db.rows ++ [{
        orderId := db.nextId, txHash := e.txHash,
        logIndex := e.logIndex, blockNumber := e.blockNumber, txDate := e.txDate,
        transferType := "withdrawal", status := "completed",
        walletAddress := e.walletAddress, amount := e.amount,
        fromAssetName := e.fromAssetName, toAssetName := e.toAssetName,
        estimatedAmount := some e.amount }],
      nextId := db.nextId + 1 } := by
  simp only [processWithdrawalCompleted]
  split
  · have hup := upsertOrder_eq_insert
      { orderId := db.nextId, txHash := e.txHash,
        logIndex := e.logIndex, blockNumber := e.blockNumber, txDate := e.txDate,
        transferType := "withdrawal", status := "completed",
        walletAddress := e.walletAddress, amount := e.amount,
        fromAssetName := e.fromAssetName, toAssetName := e.toAssetName,
        estimatedAmount := some e.amount }
      { db with nextId := db.nextId + 1 }
      (List.find?_eq_none.mpr (fun q hq hp =>
        hkeyfresh q hq ((keyB_eq_true_iff q _).mp hp)))
      (fun q hq heq => absurd heq (Nat.ne_of_lt (hwf.2.2 q hq)))
    rw [hup]
  · rename_i lw hl
    rw [hlook] at hl
    cases hl

theorem processWithdrawalCompleted_preserves (e : TransferEvent) (db db2 : OrderDB)
    (hwf : db.WF) (hinv : ∀ w a, countInProgressForWalletAmount db w a ≤ 1)
    (h : processWithdrawalCompleted e db = .ok db2) :
    db2.WF ∧ ∀ w a, countInProgressForWalletAmount db2 w a ≤ 1 := by
  simp only [processWithdrawalCompleted] at h
  split at h
  · -- no in-progress withdrawal: insert a fresh completed order
    split at h
    · rename_i db3 hup
      injection h with h3
      subst h3
      constructor
      · refine upsertOrder_wf _ _ _ ?_ ?_ hup
        · exact ⟨hwf.1, hwf.2.1, fun q hq => Nat.lt_succ_of_lt (hwf.2.2 q hq)⟩
        · exact Nat.lt_succ_self _
      · intro w a
        refine le_trans (upsertOrder_count_of_p_false _ _ _ _ ?_ hup) (hinv w a)
        simp [isInProgressWithdrawal]
    · cases h
  · -- update the found withdrawal to completed
    rename_i r hlook
    obtain ⟨hrmem, _⟩ := getLastIPW_some hlook
    split at h
    · rename_i db3 hup
      injection h with h3
      subst h3
      constructor
      · refine upsertOrder_wf _ _ _ hwf ?_ hup
        exact hwf.2.2 r hrmem
      · intro w a
        refine le_trans (upsertOrder_count_of_p_false _ _ _ _ ?_ hup) (hinv w a)
        simp [isInProgressWithdrawal]
    · cases h

theorem processWithdrawalRequested_preserves (e : TransferEvent) (db db2 : OrderDB)
    (hwf : db.WF) (hinv : ∀ w a, countInProgressForWalletAmount db w a ≤ 1)
    (h : processWithdrawalRequested e db = .ok db2) :
    db2.WF ∧ ∀ w a, countInProgressForWalletAmount db2 w a ≤ 1 := by
  simp only [processWithdrawalRequested] at h
  split at h
  · cases h
  · split at h
    · -- an in-progress withdrawal at this wallet and amount already exists
      rename_i ex hlook
      obtain ⟨hexmem, hexp, hexamt⟩ := getInProgressWA_some hlook
      split at h
      · rename_i db3 hup
        injection h with h3
        subst h3
        constructor
        · refine upsertOrder_wf _ _ _ hwf ?_ hup
          exact hwf.2.2 ex hexmem
        · intro w a
          by_cases hpex : (isInProgressWithdrawal w ex && ex.amount == a) = true
          · refine upsertOrder_count_of_p_one _ _ _ _ ex hwf.1 hwf.2.1 hexmem hpex ?_
              (hinv w a) hup
            rfl
          · have hpef : (isInProgressWithdrawal w ex && ex.amount == a) = false := by
              simpa using hpex
            refine le_trans (upsertOrder_count_of_p_false _ _ _ _ ?_ hup) (hinv w a)
            simpa [isInProgressWithdrawal] using hpef
      · cases h
    · -- fresh in-progress withdrawal
      rename_i hlook
      split at h
      · rename_i db3 hup
        injection h with h3
        subst h3
        constructor
        · refine upsertOrder_wf _ _ _ ?_ ?_ hup
          · exact ⟨hwf.1, hwf.2.1, fun q hq => Nat.lt_succ_of_lt (hwf.2.2 q hq)⟩
          · exact Nat.lt_succ_self _
        · intro w a
          rcases Classical.em (e.walletAddress = w ∧ e.amount = a) with hwa | hwa
          · obtain ⟨hw, ha⟩ := hwa
            subst hw
            subst ha
            have h0 : (db.rows.filter (fun q =>
                isInProgressWithdrawal e.walletAddress q && q.amount == e.amount)).length
                = 0 := by
              rw [getInProgressWA_none hlook]
              rfl
            refine upsertOrder_count_of_p_zero _ _ _ _ ?_ ?_ ?_ hup
            · exact hwf.1
            · simp [isInProgressWithdrawal]
            · exact h0
          · rcases not_and_or.mp hwa with hw | ha
            · refine le_trans (upsertOrder_count_of_p_false _ _ _ _ ?_ hup) (hinv w a)
              simp [isInProgressWithdrawal, hw]
            · refine le_trans (upsertOrder_count_of_p_false _ _ _ _ ?_ hup) (hinv w a)
              simp [isInProgressWithdrawal, ha]
      · cases h

theorem mapEvent_status_ne (t : String)
    (h2 : (strToLower t == "withdrawal_requested") = false) :
    ((mapEventToTransferAndStatus t).2 == "in_progress") = false := by
  unfold mapEventToTransferAndStatus
  split
  · rfl
  · split
    · rename_i hcond
      rw [h2] at hcond
      cases hcond
    · split
      · rfl
      · rfl

theorem processMessage_preserves (e : TransferEvent) (db db2 : OrderDB)
    (hwf : db.WF) (hinv : ∀ w a, countInProgressForWalletAmount db w a ≤ 1)
    (h : processMessage e db = .ok db2) :
    db2.WF ∧ ∀ w a, countInProgressForWalletAmount db2 w a ≤ 1 := by
  simp only [processMessage] at h
  split at h
  · exact processWithdrawalCompleted_preserves e db db2 hwf hinv h
  · split at h
    · exact processWithdrawalRequested_preserves e db db2 hwf hinv h
    · rename_i h1 h2
      split at h
      · rename_i db3 hup
        injection h with h3
        subst h3
        have h2f : (strToLower e.eventType == "withdrawal_requested") = false := by
          simpa using h2
        constructor
        · refine upsertOrder_wf _ _ _ ?_ ?_ hup
          · exact ⟨hwf.1, hwf.2.1, fun q hq => Nat.lt_succ_of_lt (hwf.2.2 q hq)⟩
          · exact Nat.lt_succ_self _
        · intro w a
          have hst := mapEvent_status_ne e.eventType h2f
          refine le_trans (upsertOrder_count_of_p_false _ _ _ _ ?_ hup) (hinv w a)
          simp [isInProgressWithdrawal, hst]
      · cases h

theorem applyMessage_preserves (db : OrderDB) (e : TransferEvent)
    (hwf : db.WF) (hinv : ∀ w a, countInProgressForWalletAmount db w a ≤ 1) :
    (applyMessage db e).WF ∧
      ∀ w a, countInProgressForWalletAmount (applyMessage db e) w a ≤ 1 := by
  unfold applyMessage
  cases hpm : processMessage e db with
  | ok db2 => exact processMessage_preserves e db db2 hwf hinv hpm
  | error msg => exact ⟨hwf, hinv⟩

theorem applyMessages_preserves (msgs : List TransferEvent) :
    ∀ db : OrderDB, db.WF → (∀ w a, countInProgressForWalletAmount db w a ≤ 1) →
      (applyMessages msgs db).WF ∧
        ∀ w a, countInProgressForWalletAmount (applyMessages msgs db) w a ≤ 1 := by
  induction msgs with
  | nil => exact fun db hwf hinv => ⟨hwf, hinv⟩
  | cons m ms ih =>
    intro db hwf hinv
    have hstep := applyMessage_preserves db m hwf hinv
    exact ih (applyMessage db m) hstep.1 hstep.2

/-! # Theorems settling the claims -/

/-- **C1, counterexample.**  The claim says: for every wallet, after any
sequence of bus messages, at most one Order row has
`transfer_type = withdrawal` and `status = in_progress` for that wallet.
It is false: two `withdrawal_requested` messages for the same wallet with
different amounts (`"5"` then `"7"`) each pass the
`GetInProgressWithdrawalByWalletAndAmount` guard (which filters by amount)
and insert their own `in_progress` row, so wallet `0xW` ends with two. -/
theorem c1_at_most_one_in_progress_counterexample :
    countInProgressForWallet
      (applyMessages [reqEvent "0xa1" 0 "5", reqEvent "0xa2" 1 "7"] emptyOrderDB)
      "0xW" = 2 ∧
    ¬ countInProgressForWallet
      (applyMessages [reqEvent "0xa1" 0 "5", reqEvent "0xa2" 1 "7"] emptyOrderDB)
      "0xW" ≤ 1 := by
  constructor
  · rfl
  · decide

/-- **C3.**  The claim says a repeated `withdrawal_requested` at the same
wallet and amount updates the existing row's transaction references in
place.  The code fetches the row, overwrites its `tx_hash`/`log_index`
with the new transaction's, and calls `UpsertOrder`, whose
`ON CONFLICT (tx_hash, log_index)` no longer matches the stored row — the
`INSERT` then collides with the row's untouched `order_id` primary key and
the statement fails.  So the event errors out and the store is unchanged:
the row is neither updated nor duplicated. -/
theorem c3_revision_upsert_fails :
    processMessage (reqEvent "0xa2" 1 "5") c3DB = .error "failed to upsert order" ∧
    applyMessage c3DB (reqEvent "0xa2" 1 "5") = c3DB := by
  constructor <;> rfl

/-- **C4.**  The claim says a row whose status is `sent` never changes
status again under any interleaving of the store operations.  But
`StoreOutboxEvent` re-applied to the same `(tx_hash, log_index)` — exactly
what a re-scan of the range does — executes
`ON CONFLICT ... DO UPDATE SET status = EXCLUDED.status` with the freshly
built `unsent` event, driving the row `sent → unsent`. -/
theorem c4_sent_regresses_on_restore :
    outboxStatusOf
      (MarkEventAsSent "0xd1" "deposit" 0
        (GetUnsentEventsForProcessing 10 (StoreOutboxEvent outboxDeposit emptyOutboxDB)).2)
      "0xd1" 0 = some "sent" ∧
    outboxStatusOf
      (StoreOutboxEvent outboxDeposit
        (MarkEventAsSent "0xd1" "deposit" 0
          (GetUnsentEventsForProcessing 10 (StoreOutboxEvent outboxDeposit emptyOutboxDB)).2))
      "0xd1" 0 = some "unsent" := by
  constructor <;> rfl

/-- **C5.**  Re-storing the same log is duplicate-free (the upsert keyed on
`(tx_hash, log_index)` leaves a single row), but it does *not* leave the
row's status unchanged: re-running the scanner over an already-processed
range re-stores the event with status `unsent`, and the conflict branch
overwrites a `sent` status with it. -/
theorem c5_restore_changes_status :
    (StoreOutboxEvent outboxDepositB
      (StoreOutboxEvent outboxDepositB emptyOutboxDB)).rows.length = 1 ∧
    outboxStatusOf
      (StoreOutboxEvent outboxDepositB
        (MarkEventAsSent "0xd2" "deposit" 1
          (StoreOutboxEvent outboxDepositB emptyOutboxDB)))
      "0xd2" 1 = some "unsent" := by
  constructor <;> rfl

/-- **C6.**  The claim says a decode/store failure on a log aborts the
chunk with the error surfaced and the cursor not advanced.  In
`processVaultEvents` the per-log error is only logged before `break`, and
the function returns `nil`; `processBlockRange` therefore treats the chunk
as successful and durably advances the cursor to the chunk's end (block 8
here), although log 0 of the chunk failed and log 1 was never processed. -/
theorem c6_log_failure_swallowed_cursor_advances :
    failingResolver 0 = .error "failed to unpack Deposit event data" ∧
    processVaultEvents (fun _ _ => [0, 1]) failingResolver 1 8 = .ok () ∧
    processBlockRange (fun _ _ => [0, 1]) failingResolver 10 1 8 = ([8], .ok ()) := by
  refine ⟨rfl, rfl, rfl⟩

/-- **C7.**  The claim says every block in `(lastProcessedBlock, safeBlock]`
is scanned before the cursor moves to `safeBlock`.  With
`lastProcessedBlock = 10`, `latestBlock = 23`, `finalityOffset = 12`
(so `safeBlock = 11`) and `chunkSize = 5`, the single chunk is `(11, 11)`
and the loop's `if end - start < 1 { break }` skips it — nothing is
scanned — yet the in-memory cursor still advances to 11, so block 11 is
never scanned by any later tick either. -/
theorem c7_single_block_chunk_skipped :
    chunkRanges 5 11 11 = [] ∧
    crawlerTick 12 5 10 23 = ([], 11) := by
  constructor <;> rfl

set_option maxRecDepth 100000 in
/-- **C8.**  The estimate computation for a `withdrawal_requested` event:
with the request payload carrying `amount = "100000000"` (1.0 in 8-decimal
units, so the bus message's amount string is
`convertToDecimalAmount 100000000 8 = "1"`) and `min_price = "95000000"`,
the result is `"0.950000000000000000"`; with `min_price = "0"` the result
is null, not an error. -/
theorem c8_estimate_computation :
    calculateEstimatedAmount
      (some [("min_price", "95000000"), ("amount", "100000000")])
      (convertToDecimalAmount 100000000 8) = .ok (some "0.950000000000000000") ∧
    calculateEstimatedAmount
      (some [("min_price", "0"), ("amount", "100000000")])
      (convertToDecimalAmount 100000000 8) = .ok none := by
  constructor <;> rfl

/-- **C9.**  `convertToDecimalAmount` returns the exact decimal string of
`amount / 10 ^ decimals` computed with integer arithmetic only: the string
decodes to the whole part `amount / 10 ^ decimals` and fractional digits
`f` satisfying the exact value equation, contains only digit characters
and at most one `'.'` (so no scientific notation), carries no trailing
zero in the fractional part, has no fractional part at all exactly when
`10 ^ decimals` divides `amount`, and in particular `100000000` at
8 decimals yields `"1"`. -/
theorem c9_convert_to_decimal_exact :
    (∀ amount decimals : Nat,
      ∃ f : List Char,
        decodeDecimal (convertToDecimalAmount amount decimals).data
          = some (amount / 10 ^ decimals, f) ∧
        f.length ≤ decimals ∧
        (amount / 10 ^ decimals) * 10 ^ decimals
            + chrsVal f * 10 ^ (decimals - f.length) = amount ∧
        (∀ c ∈ (convertToDecimalAmount amount decimals).data,
          c.isDigit = true ∨ c = '.') ∧
        f.getLast? ≠ some '0' ∧
        (f = [] ↔ 10 ^ decimals ∣ amount)) ∧
    convertToDecimalAmount 100000000 8 = "1" := by
  constructor
  · intro amount decimals
    have hDpos : 0 < 10 ^ decimals := Nat.pos_pow_of_pos decimals (by norm_num)
    by_cases hrem : amount % 10 ^ decimals = 0
    · -- no remainder: the string is just the whole part
      have hconv : convertToDecimalAmount amount decimals
          = natStr (amount / 10 ^ decimals) := by
        simp only [convertToDecimalAmount]
        rw [if_pos hrem]
      refine ⟨[], ?_, by simp, ?_, ?_, by simp, ?_⟩
      · rw [hconv]
        show decodeDecimal (natChars (amount / 10 ^ decimals)) = _
        rw [decodeDecimal_no_dot _ (natChars_ne_nil _) (natChars_all_digit _),
          chrsVal_natChars]
      · show (amount / 10 ^ decimals) * 10 ^ decimals
            + chrsVal [] * 10 ^ (decimals - 0) = amount
        have h0 : chrsVal [] = 0 := rfl
        rw [h0, Nat.zero_mul, Nat.add_zero]
        exact Nat.div_mul_cancel (Nat.dvd_of_mod_eq_zero hrem)
      · intro c hc
        rw [hconv] at hc
        exact Or.inl (natChars_all_digit _ c hc)
      · simp [Nat.dvd_of_mod_eq_zero hrem]
    · -- nonzero remainder: whole part, dot, trimmed padded remainder digits
      have hremlt : amount % 10 ^ decimals < 10 ^ decimals := Nat.mod_lt _ hDpos
      have hPdig : ∀ c ∈ padLeftZeros (natChars (amount % 10 ^ decimals)) decimals,
          c.isDigit = true := by
        intro c hc
        rw [padLeftZeros] at hc
        rcases List.mem_append.mp hc with h1 | h2
        · rw [List.eq_of_mem_replicate h1]; rfl
        · exact natChars_all_digit _ c h2
      have hPlen : (padLeftZeros (natChars (amount % 10 ^ decimals)) decimals).length
          = decimals := by
        rw [padLeftZeros, List.length_append, List.length_replicate]
        have := natChars_length_le (amount % 10 ^ decimals) decimals hrem hremlt
        omega
      have hPval : chrsVal (padLeftZeros (natChars (amount % 10 ^ decimals)) decimals)
          = amount % 10 ^ decimals := by
        rw [padLeftZeros, chrsVal_append, chrsVal_replicate_zero, chrsVal_natChars]
        simp
      obtain ⟨k, hdecomp, hlast⟩ :=
        trimRightZeros_spec (padLeftZeros (natChars (amount % 10 ^ decimals)) decimals)
      have hTk : (trimRightZeros
            (padLeftZeros (natChars (amount % 10 ^ decimals)) decimals)).length + k
          = decimals := by
        have := congrArg List.length hdecomp
        rw [List.length_append, List.length_replicate, hPlen] at this
        omega
      have hTval : chrsVal (trimRightZeros
            (padLeftZeros (natChars (amount % 10 ^ decimals)) decimals)) * 10 ^ k
          = amount % 10 ^ decimals := by
        have h2 := hPval
        rw [hdecomp, chrsVal_append, chrsVal_replicate_zero, List.length_replicate]
          at h2
        omega
      have hTne : trimRightZeros
          (padLeftZeros (natChars (amount % 10 ^ decimals)) decimals) ≠ [] := by
        intro h0
        rw [h0] at hTval
        have h1 : chrsVal ([] : List Char) = 0 := rfl
        rw [h1, Nat.zero_mul] at hTval
        exact hrem hTval.symm
      have hTdig : ∀ c ∈ trimRightZeros
          (padLeftZeros (natChars (amount % 10 ^ decimals)) decimals),
          c.isDigit = true := by
        intro c hc
        exact hPdig c (hdecomp ▸ List.mem_append_left _ hc)
      have hconv : convertToDecimalAmount amount decimals
          = natStr (amount / 10 ^ decimals) ++ "." ++ String.mk
              (trimRightZeros
                (padLeftZeros (natChars (amount % 10 ^ decimals)) decimals)) := by
        simp only [convertToDecimalAmount]
        rw [if_neg hrem, if_neg hTne]
      have hdata : (convertToDecimalAmount amount decimals).data
          = natChars (amount / 10 ^ decimals) ++ '.' :: trimRightZeros
              (padLeftZeros (natChars (amount % 10 ^ decimals)) decimals) := by
        rw [hconv]
        show (natChars (amount / 10 ^ decimals) ++ ['.']) ++ _ = _
        rw [List.append_assoc]
        rfl
      refine ⟨trimRightZeros
          (padLeftZeros (natChars (amount % 10 ^ decimals)) decimals),
        ?_, by omega, ?_, ?_, hlast, ?_⟩
      · rw [hdata, decodeDecimal_with_dot _ _ (natChars_ne_nil _)
          (natChars_all_digit _) hTne hTdig, chrsVal_natChars]
      · have hk : decimals - (trimRightZeros
            (padLeftZeros (natChars (amount % 10 ^ decimals)) decimals)).length
            = k := by omega
        rw [hk, hTval, Nat.mul_comm (amount / 10 ^ decimals) (10 ^ decimals)]
        exact Nat.div_add_mod amount (10 ^ decimals)
      · intro c hc
        rw [hdata] at hc
        rcases List.mem_append.mp hc with h1 | h2
        · exact Or.inl (natChars_all_digit _ c h1)
        · rcases List.mem_cons.mp h2 with h3 | h4
          · exact Or.inr h3
          · exact Or.inl (hTdig c h4)
      · constructor
        · intro h0; exact absurd h0 hTne
        · intro hdvd
          exact absurd (Nat.mod_eq_zero_of_dvd hdvd) hrem
  · rfl

/-- **C1, amended.**  After any sequence of bus messages applied from an
empty Order store, at most one row is an `in_progress` withdrawal for any
given wallet *at any given amount*.  (The per-wallet bound of the original
claim fails — see the counterexample — because the duplicate guard
`GetInProgressWithdrawalByWalletAndAmount` filters by wallet and amount.) -/
theorem c1_at_most_one_in_progress_per_amount :
    ∀ (msgs : List TransferEvent) (w a : String),
      countInProgressForWalletAmount (applyMessages msgs emptyOrderDB) w a ≤ 1 := by
  intro msgs w a
  refine (applyMessages_preserves msgs emptyOrderDB ?_ ?_).2 w a
  · exact ⟨List.Pairwise.nil, List.Pairwise.nil,
      fun r hr => absurd hr (List.not_mem_nil r)⟩
  · intro w a
    simp [countInProgressForWalletAmount, emptyOrderDB]

/-- **C2.**  Processing a `withdrawal_completed` event for wallet W: if an
`in_progress` withdrawal order exists for W, the lookup returns the most
recent one by transaction date and exactly that row transitions to
`completed`, keeping its `estimated_amount` when already set and
defaulting it to the completion amount otherwise; if none exists (and the
completion log's key is not already present), a new order is created with
`transfer_type = withdrawal`, `status = completed` and `estimated_amount`
equal to the completion event's amount. -/
theorem c2_completion_reconciliation (db : OrderDB) (e : TransferEvent)
    (hwf : db.WF) :
    (∀ r, GetLastInProgressWithdrawalByWallet db e.walletAddress = some r →
      r ∈ db.rows ∧
      (∀ q ∈ db.rows, isInProgressWithdrawal e.walletAddress q = true →
        q.txDate ≤ r.txDate) ∧
      processWithdrawalCompleted e db = .ok { db with
        rows := db.rows.map (fun q =>
          if q.txHash == r.txHash && q.logIndex == r.logIndex then
            { r with
              status := "completed",
              estimatedAmount :=
                match r.estimatedAmount with
                | none => some e.amount
                | some v => some v }
          else q) }) ∧
    (GetLastInProgressWithdrawalByWallet db e.walletAddress = none →
      (∀ q ∈ db.rows, ¬ (q.txHash = e.txHash ∧ q.logIndex = e.logIndex)) →
      processWithdrawalCompleted e db = .ok {
        rows := db.rows ++ [{
          orderId := db.nextId, txHash := e.txHash,
          logIndex := e.logIndex, blockNumber := e.blockNumber, txDate := e.txDate,
          transferType := "withdrawal", status := "completed",
          walletAddress := e.walletAddress, amount := e.amount,
          fromAssetName := e.fromAssetName, toAssetName := e.toAssetName,
          estimatedAmount := some e.amount }],
        nextId := db.nextId + 1 }) := by
  constructor
  · intro r hlook
    exact ⟨(getLastIPW_some hlook).1, getLastIPW_max hlook,
      processWithdrawalCompleted_update db e r hwf hlook⟩
  · intro hlook hfresh
    exact processWithdrawalCompleted_insert db e hwf hlook hfresh

/-- Witness for C2: a store holding one `in_progress` withdrawal for
wallet `0xW` with `estimated_amount = "0.95"` transitions exactly that row
to `completed` with the estimate unchanged; from an empty store the same
event creates a new `completed` order with the event's amount as the
estimate. -/
theorem c2_completion_reconciliation_witness :
    processWithdrawalCompleted compEvent c2DB
      = .ok ⟨[{ c2Existing with status := "completed" }], 1⟩ ∧
    processWithdrawalCompleted compEvent emptyOrderDB
      = .ok ⟨[{
          orderId := 0, txHash := "0xc1", logIndex := 0, blockNumber := 2,
          txDate := 20, transferType := "withdrawal", status := "completed",
          walletAddress := "0xW", amount := "0.93", fromAssetName := "LBTCv",
          toAssetName := "WBTC", estimatedAmount := some "0.93" }], 1⟩ := by
  have hwfc2 : c2DB.WF := by
    refine ⟨?_, ?_, ?_⟩
    · exact List.pairwise_singleton _ _
    · exact List.pairwise_singleton _ _
    · intro r hr
      rw [List.mem_singleton.mp hr]
      exact Nat.zero_lt_one
  have hwfe : emptyOrderDB.WF :=
    ⟨List.Pairwise.nil, List.Pairwise.nil, fun r hr => absurd hr (List.not_mem_nil r)⟩
  constructor
  · have h := (c2_completion_reconciliation c2DB compEvent hwfc2).1 c2Existing (by rfl)
    rw [h.2.2]
    rfl
  · have h := (c2_completion_reconciliation emptyOrderDB compEvent hwfe).2 (by rfl)
      (fun q hq => absurd hq (List.not_mem_nil q))
    rw [h]
    rfl

/-- **C10.**  When a `withdrawal_completed` event is reconciled against an
existing `in_progress` withdrawal, every field of that row other than
`status` (and an `estimated_amount` that was previously null) is left
unchanged; no row is added or removed, all other rows are untouched, and
the completion transaction's hash is never written — a lookup by that
hash returns not-found. -/
theorem c10_completion_frame (db : OrderDB) (e : TransferEvent) (r : Order)
    (hwf : db.WF)
    (hlook : GetLastInProgressWithdrawalByWallet db e.walletAddress = some r)
    (hfresh : ∀ q ∈ db.rows, q.txHash ≠ e.txHash) :
    ∃ db2, processWithdrawalCompleted e db = .ok db2 ∧
      db2.rows.length = db.rows.length ∧
      (∃ r2 ∈ db2.rows,
        r2.orderId = r.orderId ∧ r2.txHash = r.txHash ∧ r2.logIndex = r.logIndex ∧
        r2.blockNumber = r.blockNumber ∧ r2.txDate = r.txDate ∧
        r2.walletAddress = r.walletAddress ∧ r2.amount = r.amount ∧
        r2.fromAssetName = r.fromAssetName ∧ r2.toAssetName = r.toAssetName ∧
        r2.status = "completed" ∧
        (∀ v, r.estimatedAmount = some v → r2.estimatedAmount = some v)) ∧
      (∀ q ∈ db.rows, ¬ (q.txHash = r.txHash ∧ q.logIndex = r.logIndex) →
        q ∈ db2.rows) ∧
      GetOrderByTxHash db2 e.txHash = none := by
  have hrmem := (getLastIPW_some hlook).1
  refine ⟨_, processWithdrawalCompleted_update db e r hwf hlook, ?_, ?_, ?_, ?_⟩
  · simp
  · refine ⟨{ r with
        status := "completed",
        estimatedAmount :=
          match r.estimatedAmount with
          | none => some e.amount
          | some v => some v }, ?_, rfl, rfl, rfl, rfl, rfl, rfl, rfl, rfl, rfl,
      rfl, ?_⟩
    · exact List.mem_map.mpr ⟨r, hrmem, by rw [if_pos (by simp)]⟩
    · intro v hv
      rw [hv]
  · intro q hq hne
    refine List.mem_map.mpr ⟨q, hq, ?_⟩
    rw [if_neg (fun hb => hne ((keyB_eq_true_iff q r).mp hb))]
  · unfold GetOrderByTxHash
    apply List.find?_eq_none.mpr
    intro x hx
    obtain ⟨q, hq, rfl⟩ := List.mem_map.mp hx
    by_cases hm : (q.txHash == r.txHash && q.logIndex == r.logIndex) = true
    · rw [if_pos hm]
      simpa using hfresh r hrmem
    · rw [if_neg hm]
      simpa using hfresh q hq

/-- Witness for C10 at a concrete store: one `in_progress` withdrawal with
a null estimate reconciled by a completion from transaction `0xc1`. -/
theorem c10_completion_frame_witness :
    ∃ db2, processWithdrawalCompleted compEvent c10DB = .ok db2 ∧
      db2.rows.length = c10DB.rows.length ∧
      (∃ r2 ∈ db2.rows,
        r2.orderId = c10Existing.orderId ∧ r2.txHash = c10Existing.txHash ∧
        r2.logIndex = c10Existing.logIndex ∧
        r2.blockNumber = c10Existing.blockNumber ∧
        r2.txDate = c10Existing.txDate ∧
        r2.walletAddress = c10Existing.walletAddress ∧
        r2.amount = c10Existing.amount ∧
        r2.fromAssetName = c10Existing.fromAssetName ∧
        r2.toAssetName = c10Existing.toAssetName ∧
        r2.status = "completed" ∧
        (∀ v, c10Existing.estimatedAmount = some v → r2.estimatedAmount = some v)) ∧
      (∀ q ∈ c10DB.rows,
        ¬ (q.txHash = c10Existing.txHash ∧ q.logIndex = c10Existing.logIndex) →
        q ∈ db2.rows) ∧
      GetOrderByTxHash db2 compEvent.txHash = none := by
  have hwfp : c10DB.WF := by
    refine ⟨List.pairwise_singleton _ _, List.pairwise_singleton _ _, ?_⟩
    intro r hr
    rw [List.mem_singleton.mp hr]
    exact Nat.zero_lt_one
  refine c10_completion_frame c10DB compEvent c10Existing hwfp (by rfl) ?_
  intro q hq
  rw [List.mem_singleton.mp hq]
  decide

end Yield




